import Mathlib

/-!
Shallow embedding of the gating engine of `src/gating/contour_based_gating.py`
(class `ContourBasedGating`), together with models of the numpy / scipy
library routines it calls (`np.percentile`, `np.convolve`, `np.std`,
`np.diff`, `scipy.signal.find_peaks`).

Modelling conventions:
* Real-valued (floating point) signals are modelled as `List ℚ`.
  `np.nan_to_num` (line 253 of the source) is the identity on this model,
  since `ℚ` has no NaN/Inf; where the behaviour of non-finite floats is
  itself the subject of a claim (the `combined_signal` weights), the
  computation is carried out in `Option ℚ` with `none` standing for any
  non-finite float value (inf / -inf / NaN).
* Frame indices are `Nat`.
* The pandas lumen-area lookup
  `report_data.loc[report_data['frame'] == frame, 'lumen_area'].values[0]`
  is modelled as a total function `lumen : Nat → ℚ` from frame number to
  lumen area.
* The mutable `main_window.data['phases']` dictionary is modelled as a
  function `Nat → Char` updated with `Function.update`.
-/

/-- Absolute difference of two naturals, modelling Python `abs(a - b)` on ints. -/
def natDist (a b : Nat) : Nat := max a b - min a b

/-- Python `round` applied to `s / 2` for a natural `s`: round-half-to-even
(banker's rounding), which is what Python 3 `round` does on the exactly
representable float `s / 2`. -/
def pyRoundHalf (s : Nat) : Nat :=
  if s % 2 = 0 then s / 2
  else if (s / 2) % 2 = 0 then s / 2 else s / 2 + 1

/-- Model of `np.percentile(a, q)` with the default linear interpolation:
virtual index `v = q/100 * (n-1)` into the sorted data, interpolating
between the two neighbouring order statistics. -/
def percentile (a : List ℚ) (q : ℚ) : ℚ :=
  if a.isEmpty then 0
  else
    let s := List.insertionSort (· ≤ ·) a
    let v : ℚ := q / 100 * ((a.length : ℚ) - 1)
    let f : Nat := (⌊v⌋).toNat
    let lo := s.getD f 0
    let hi := s.getD (min (f + 1) (a.length - 1)) 0
    lo + (v - (f : ℚ)) * (hi - lo)

/-- Decidable check that `[l, r]` is a maximal flat run of the signal `x`
that scipy's `_local_maxima_1d` reports as a local maximum: the value is
constant on `[l, r]`, strictly rises into `l` and strictly falls after `r`.
A strict local maximum is the special case `l = r`. -/
def isMaxRunB (x : List ℚ) (l r : Nat) : Bool :=
  decide (1 ≤ l) && decide (l ≤ r) && decide (r + 2 ≤ x.length) &&
  ((List.range' l (r + 1 - l)).all fun k => decide (x.getD k 0 = x.getD l 0)) &&
  decide (x.getD (l - 1) 0 < x.getD l 0) && decide (x.getD (r + 1) 0 < x.getD l 0)

/-- Decidable check that `m` is the midpoint of some maximal-run local
maximum of `x` (scipy reports the midpoint `(l + r) / 2`, rounding down). -/
def isPeakB (x : List ℚ) (m : Nat) : Bool :=
  (List.range x.length).any fun l =>
    (List.range x.length).any fun r => isMaxRunB x l r && decide (m = (l + r) / 2)

/-- Model of scipy's `_local_maxima_1d`: midpoints of all maximal flat local
maxima, in increasing order. -/
def local_maxima (x : List ℚ) : List Nat :=
  (List.range x.length).filter (isPeakB x)

/-- One step of scipy's `_select_by_peak_distance`: walk the peaks in order
of decreasing priority (peak height); each still-kept peak removes every
other peak closer than `dist` to it. -/
def sbdGo (dist : Nat) : List Nat → List Nat → List Nat
  | [], keep => keep
  | p :: rest, keep =>
    if p ∈ keep then
      sbdGo dist rest (keep.filter fun q => decide (q = p) || decide (dist ≤ natDist q p))
    else sbdGo dist rest keep

/-- Priority order used by scipy's distance filter: peaks sorted by height,
highest first. -/
def sbdPrio (x : List ℚ) (peaks : List Nat) : List Nat :=
  (List.insertionSort (fun a b => x.getD a 0 ≤ x.getD b 0) peaks).reverse

/-- Model of scipy's `_select_by_peak_distance`. -/
def select_by_peak_distance (x : List ℚ) (peaks : List Nat) (dist : Nat) : List Nat :=
  sbdGo dist (sbdPrio x peaks) peaks

/-- Model of `scipy.signal.find_peaks(x, distance=dist, height=height)`:
local maxima, filtered by minimal height first, then by minimal horizontal
distance (scipy applies the height condition before the distance condition). -/
def find_peaks (x : List ℚ) (dist : Nat) (height : ℚ) : List Nat :=
  let p1 := (local_maxima x).filter fun p => decide (height ≤ x.getD p 0)
  select_by_peak_distance x p1 dist

/-- Embedding of `ContourBasedGating.identify_extrema` (source lines
251-266): height threshold from a configurable percentile of the signal,
maxima of the signal and of its negation by `find_peaks`, and the sorted
union of both together with the maxima alone.  `np.nan_to_num` is the
identity on the `ℚ` model of the signal. -/
def identify_extrema (x : List ℚ) (dist : Nat) (pct : ℚ) : List Nat × List Nat :=
  let min_height := percentile x pct
  let maxima_indices := find_peaks x dist min_height
  let minima_indices := find_peaks (x.map fun v => -v) dist min_height
  (List.insertionSort (· ≤ ·) (maxima_indices ++ minima_indices), maxima_indices)

/-- Embedding of the greedy matching loop of
`ContourBasedGating.automatic_gating` (source lines 379-389): for each
maxima-peak index in order, the candidate extrema are those within the
threshold (`close_extrema`), the first candidate in list order is taken
(`close_extrema[0]`), the rounded average of the pair is appended to the
gated indices (`round((maxima + closest_extrema) / 2)`), and the first
occurrence of the chosen value is removed from the extrema list
(`extrema_indices.remove`). -/
def gateMatch (thr : Nat) : List Nat → List Nat → List Nat
  | [], _ => []
  | m :: ms, ex =>
    match ex.filter fun e => decide (natDist m e ≤ thr) with
    | [] => gateMatch thr ms ex
    | c :: _ => pyRoundHalf (m + c) :: gateMatch thr ms (ex.erase c)

/-- Python slice `l[::2]`: the elements at even positions. -/
def everySecond {α : Type} : List α → List α
  | [] => []
  | [a] => [a]
  | a :: _ :: rest => a :: everySecond rest

/-- Maxima-peak index list used by `automatic_gating` (source lines
370-377): the full extrema of the maxima signal when `both_extrema` is
configured, its maxima only otherwise. -/
def gatingMaximaIndices (both_extrema : Bool) (dist : Nat) (pct : ℚ)
    (maxima_signal : List ℚ) : List Nat :=
  if both_extrema then (identify_extrema maxima_signal dist pct).1
  else (identify_extrema maxima_signal dist pct).2

/-- Gated frame indices produced by the matching loop of
`automatic_gating` on the two composite signals. -/
def gatedIndicesOf (both_extrema : Bool) (dist : Nat) (pct : ℚ) (thr : Nat)
    (maxima_signal extrema_signal : List ℚ) : List Nat :=
  gateMatch thr (gatingMaximaIndices both_extrema dist pct maxima_signal)
    (identify_extrema extrema_signal dist pct).1

/-- Embedding of `ContourBasedGating.automatic_gating` (source lines
357-412).  Returns the diastolic gated frames, the systolic gated frames
and the updated per-frame phase map.  `lumen` models the per-frame
`lumen_area` lookup in `report_data`; `phases` the mutable
`main_window.data['phases']` map.  The gated index list is split by parity
of position (`[::2]` / `[1::2]`), the half with the strictly greater
lumen-area sum becomes the diastolic set (ties take the `else` branch of
`if sum_first_half > sum_second_half`), and the phase map is stamped with
`'D'` over the diastolic frames first, then `'S'` over the systolic ones. -/
def automatic_gating (both_extrema : Bool) (dist : Nat) (pct : ℚ) (thr : Nat)
    (maxima_signal extrema_signal : List ℚ) (lumen : Nat → ℚ)
    (phases : Nat → Char) : List Nat × List Nat × (Nat → Char) :=
  let gated_indices := gatedIndicesOf both_extrema dist pct thr maxima_signal extrema_signal
  let first_half := everySecond gated_indices
  let second_half := everySecond gated_indices.tail
  let sum_first_half := (first_half.map lumen).sum
  let sum_second_half := (second_half.map lumen).sum
  let dia := if sum_second_half < sum_first_half then first_half else second_half
  let sys := if sum_second_half < sum_first_half then second_half else first_half
  let ph := sys.foldl (fun p f => Function.update p f 'S')
      (dia.foldl (fun p f => Function.update p f 'D') phases)
  (dia, sys, ph)

/-- Gating-related control flow of `ContourBasedGating.plot_data` (source
lines 339-343): `automatic_gating` is invoked exactly when both gated
frame lists of the main window are empty (Python truthiness of the two
lists); otherwise the existing gated frames and phase map are left
untouched.  The returned `Bool` records whether `automatic_gating` ran. -/
def plot_data_gating (both_extrema : Bool) (dist : Nat) (pct : ℚ) (thr : Nat)
    (maxima_signal extrema_signal : List ℚ) (lumen : Nat → ℚ)
    (gated_frames_dia gated_frames_sys : List Nat) (phases : Nat → Char) :
    Bool × (List Nat × List Nat × (Nat → Char)) :=
  if gated_frames_dia.isEmpty && gated_frames_sys.isEmpty then
    (true, automatic_gating both_extrema dist pct thr maxima_signal extrema_signal lumen phases)
  else
    (false, (gated_frames_dia, gated_frames_sys, phases))

/-- Arithmetic mean, modelling `np.mean`. -/
def listMean (l : List ℚ) : ℚ := l.sum / (l.length : ℚ)

/-- Embedding of the composite-signal scaling step of
`ContourBasedGating.plot_data` (source lines 285-295): the ratio of the
means is computed as `factor_diff = mean(signal_maxima) /
mean(signal_extrema)`; when `factor_diff < 1` the extrema signal is
multiplied by it, otherwise the maxima signal is multiplied by it. -/
def scale_signals (signal_maxima signal_extrema : List ℚ) : List ℚ × List ℚ :=
  let factor_diff := listMean signal_maxima / listMean signal_extrema
  if factor_diff < 1 then (signal_maxima, signal_extrema.map fun v => v * factor_diff)
  else (signal_maxima.map fun v => v * factor_diff, signal_extrema)

/-- Minimum of a list, modelling `np.min` on a nonempty array (the empty
case, on which numpy raises, is given the junk value `0`). -/
def listMin (l : List ℚ) : ℚ :=
  match l with
  | [] => 0
  | a :: t => t.foldl min a

/-- Embedding of `ContourBasedGating.normalize_data` (source lines
139-140): `(data - np.min(data)) / np.sum(data - np.min(data))`.  For a
constant signal the denominator is `0`; the float result (all NaN) is
modelled by `ℚ`'s zero-division convention, which makes every entry `0` --
a defined degenerate value, not an exception. -/
def normalize_data (data : List ℚ) : List ℚ :=
  let m := listMin data
  let s := (data.map fun v => v - m).sum
  data.map fun v => (v - m) / s

/-- Inner `while` loop of `ContourBasedGating.connect_consecutive_frames`
(source lines 103-111): starting after an element `a`, collect the
following elements as long as each is exactly one more than its
predecessor; return the collected run continuation and the remaining list. -/
def takeRun (a : Nat) : List Nat → List Nat × List Nat
  | [] => ([], [])
  | b :: rest =>
    if b = a + 1 then
      let p := takeRun b rest
      (b :: p.1, p.2)
    else ([], b :: rest)

theorem takeRun_snd_length (a : Nat) (l : List Nat) : (takeRun a l).2.length ≤ l.length := by
  induction l generalizing a with
  | nil => simp [takeRun]
  | cons b rest ih =>
    simp only [takeRun]
    split
    · exact Nat.le_succ_of_le (ih b)
    · exact Nat.le_refl _

/-- Outer `while` loop of `ContourBasedGating.connect_consecutive_frames`:
split the (sorted, deduplicated) list into maximal runs of consecutive
numbers. -/
def splitRuns : List Nat → List (List Nat)
  | [] => []
  | a :: rest => (a :: (takeRun a rest).1) :: splitRuns (takeRun a rest).2
termination_by l => l.length
decreasing_by
  simp only [List.length_cons]
  exact Nat.lt_succ_of_le (takeRun_snd_length _ _)

/-- Formatting of one run in `connect_consecutive_frames` (source lines
112-115): runs longer than two elements become `'first-last'`, shorter
runs are joined element by element with `', '`. -/
def formatRun (r : List Nat) : String :=
  if 2 < r.length then toString (r.headD 0) ++ "-" ++ toString (r.getLastD 0)
  else String.intercalate ", " (r.map toString)

/-- Embedding of `ContourBasedGating.connect_consecutive_frames` (source
lines 99-116): sort and deduplicate the missing frame numbers
(`sorted(set(missing))`), split them into maximal consecutive runs,
format each run and join everything with `', '`. -/
def connect_consecutive_frames (missing : List Nat) : String :=
  let nums := List.insertionSort (· ≤ ·) missing.dedup
  String.intercalate ", " ((splitRuns nums).map formatRun)

/-- Addition on the float model `Option ℚ` (`none` = non-finite): any
operation touching a non-finite value is non-finite. -/
def nfAdd : Option ℚ → Option ℚ → Option ℚ
  | some a, some b => some (a + b)
  | _, _ => none

/-- Multiplication on the float model `Option ℚ`; note `inf * 0 = nan` in
IEEE floats, so `none * x = none` for every `x` is faithful. -/
def nfMul : Option ℚ → Option ℚ → Option ℚ
  | some a, some b => some (a * b)
  | _, _ => none

/-- Division on the float model `Option ℚ`: division by zero gives a
non-finite float (`±inf` or `nan`), hence `none`. -/
def nfDiv : Option ℚ → Option ℚ → Option ℚ
  | some a, some b => if b = 0 then none else some (a / b)
  | _, _ => none

/-- Python `** -1` on the float model: reciprocal, with `0 ** -1`
non-finite (numpy yields `inf` with only a runtime warning). -/
def nfRecip : Option ℚ → Option ℚ
  | some a => if a = 0 then none else some a⁻¹
  | none => none

/-- Model of `np.diff` on an index array, as rationals. -/
def diffsQ : List Nat → List ℚ
  | a :: b :: rest => ((b : ℚ) - (a : ℚ)) :: diffsQ (b :: rest)
  | _ => []

/-- Model of `np.std(l)` up to the final square root: the population
variance, `none` on the empty list (where numpy produces NaN with a
warning).  Only the zero-ness and definedness of the standard deviation
are used by the theorems below, and those coincide with the variance's
(`std = 0 ↔ variance = 0`, `std` NaN iff variance NaN); the square root
itself is irrational and not representable in `ℚ`. -/
def np_variance (l : List ℚ) : Option ℚ :=
  if l.isEmpty then none
  else some (((l.map fun v => (v - listMean l) ^ 2).sum) / (l.length : ℚ))

/-- Full discrete convolution `np.convolve(x, k)`. -/
def convolve_full (x k : List ℚ) : List ℚ :=
  (List.range (x.length + k.length - 1)).map fun t =>
    ((List.range k.length).map fun j =>
      if j ≤ t ∧ t - j < x.length then x.getD (t - j) 0 * k.getD j 0 else 0).sum

/-- Embedding of `ContourBasedGating.smooth_curve` (source lines 268-269):
`np.convolve(signal, np.ones(w)/w, mode='same')`, i.e. the centred slice
`full[(w-1)/2 : (w-1)/2 + len(signal)]` of the full convolution (for the
practically relevant case `w ≤ len(signal)`). -/
def smooth_curve (w : Nat) (x : List ℚ) : List ℚ :=
  ((convolve_full x (List.replicate w (1 / (w : ℚ)))).drop ((w - 1) / 2)).take x.length

/-- Variability of one signal in `ContourBasedGating.combined_signal`
(source lines 203-220): smooth the signal, find its extrema (all extrema,
or maxima only when `maxima_only` is set), and take
`np.std(np.diff(extrema))` (modelled by `np_variance`). -/
def signal_variability (w dist : Nat) (pct : ℚ) (maxima_only : Bool) (s : List ℚ) : Option ℚ :=
  let sm := smooth_curve w s
  let ext := if maxima_only then (identify_extrema sm dist pct).2
             else (identify_extrema sm dist pct).1
  np_variance (diffsQ ext)

/-- The accumulation loop `combined_signal += weights[i] * signal` of
`ContourBasedGating.combined_signal`, starting from `np.zeros(n)`, in the
float model. -/
def weightedSumNF (ws : List (Option ℚ)) (sigs : List (List ℚ)) (n : Nat) : List (Option ℚ) :=
  (ws.zip sigs).foldl
    (fun acc p => List.zipWith nfAdd acc (p.2.map fun v => nfMul p.1 (some v)))
    (List.replicate n (some 0))

/-- Embedding of `ContourBasedGating.combined_signal` (source lines
191-249) in the float model `Option ℚ`: per-signal variabilities, their
sum (`np.sum`), weights `(var / sum_variability) ** -1`, and the two
weighted sums -- over the input signals and over the fixed group of
unfiltered normalized counterparts (`nor_list`, which in the source is
`[correlation_nor, blurring_nor]` or
`[shortest_distance_nor, vector_angle_nor, vector_length_nor]`). -/
def combined_signal (w dist : Nat) (pct : ℚ) (maxima_only : Bool)
    (signal_list nor_list : List (List ℚ)) : List (Option ℚ) × List (Option ℚ) :=
  let variability := signal_list.map (signal_variability w dist pct maxima_only)
  let sum_variability := variability.foldl nfAdd (some 0)
  let weights := variability.map fun v => nfRecip (nfDiv v sum_variability)
  let n := (signal_list.headD []).length
  (weightedSumNF weights signal_list n, weightedSumNF weights nor_list n)

/-! Helper lemmas about `listMin`. -/

theorem foldl_min_le_init (t : List ℚ) : ∀ a : ℚ, t.foldl min a ≤ a := by
  induction t with
  | nil => intro a; simp
  | cons b t ih => intro a; exact le_trans (ih (min a b)) (min_le_left a b)

theorem foldl_min_le_mem (t : List ℚ) : ∀ a : ℚ, ∀ v ∈ t, t.foldl min a ≤ v := by
  induction t with
  | nil => intro a v hv; simp at hv
  | cons b t ih =>
    intro a v hv
    rcases List.mem_cons.mp hv with h | h
    · subst h
      exact le_trans (foldl_min_le_init t (min a v)) (min_le_right a v)
    · exact ih (min a b) v h

theorem listMin_le_mem (d : List ℚ) (v : ℚ) (hv : v ∈ d) : listMin d ≤ v := by
  match d with
  | [] => cases hv
  | a :: t =>
    rcases List.mem_cons.mp hv with h | h
    · subst h; exact foldl_min_le_init t v
    · exact foldl_min_le_mem t a v h

theorem foldl_min_mem (t : List ℚ) : ∀ a : ℚ, t.foldl min a ∈ a :: t := by
  induction t with
  | nil => intro a; simp
  | cons b t ih =>
    intro a
    have h := ih (min a b)
    simp only [List.foldl_cons]
    rcases List.mem_cons.mp h with h | h
    · rcases min_choice a b with hc | hc
      · rw [h, hc]; exact List.mem_cons_self _ _
      · rw [h, hc]; exact List.mem_cons_of_mem _ (List.mem_cons_self _ _)
    · exact List.mem_cons_of_mem _ (List.mem_cons_of_mem _ h)

theorem listMin_mem (d : List ℚ) (hd : d ≠ []) : listMin d ∈ d := by
  match d with
  | [] => exact absurd rfl hd
  | a :: t => exact foldl_min_mem t a

theorem le_foldl_min (t : List ℚ) : ∀ a c : ℚ, c ≤ a → (∀ v ∈ t, c ≤ v) → c ≤ t.foldl min a := by
  induction t with
  | nil => intro a c h _; simpa using h
  | cons b t ih =>
    intro a c h hall
    simp only [List.foldl_cons]
    exact ih (min a b) c (le_min h (hall b (List.mem_cons_self _ _)))
      fun v hv => hall v (List.mem_cons_of_mem _ hv)

theorem listMin_eq_of (d : List ℚ) (c : ℚ) (hmem : c ∈ d) (hle : ∀ v ∈ d, c ≤ v) :
    listMin d = c := by
  have h1 : listMin d ≤ c := listMin_le_mem d c hmem
  have h2 : c ≤ listMin d := by
    match d with
    | [] => cases hmem
    | a :: t =>
      exact le_foldl_min t a c (hle a (List.mem_cons_self _ _))
        fun v hv => hle v (List.mem_cons_of_mem _ hv)
  exact le_antisymm h1 h2

theorem foldl_min_map_add (t : List ℚ) (c : ℚ) :
    ∀ a : ℚ, (t.map fun v => v + c).foldl min (a + c) = t.foldl min a + c := by
  have hmono : Monotone fun v : ℚ => v + c := fun x y h => add_le_add_right h c
  induction t with
  | nil => intro a; rfl
  | cons b t ih =>
    intro a
    simp only [List.map_cons, List.foldl_cons]
    rw [← hmono.map_min, ih (min a b)]

theorem listMin_map_add (d : List ℚ) (c : ℚ) (hd : d ≠ []) :
    listMin (d.map fun v => v + c) = listMin d + c := by
  match d with
  | [] => exact absurd rfl hd
  | a :: t => exact foldl_min_map_add t c a

/-- C10 theorem: normalization is invariant under adding a constant to
every element of the signal. -/
theorem normalize_data_shift_invariant (d : List ℚ) (c : ℚ) :
    normalize_data (d.map fun v => v + c) = normalize_data d := by
  rcases eq_or_ne d [] with rfl | hd
  · rfl
  · have hmin := listMin_map_add d c hd
    simp only [normalize_data, hmin, List.map_map]
    have hsub : ((fun v => v - (listMin d + c)) ∘ fun v => v + c) =
        fun v => v - listMin d := by
      funext v; simp only [Function.comp_apply]; ring
    have hdiv : ∀ S : ℚ, ((fun v => (v - (listMin d + c)) / S) ∘ fun v => v + c) =
        fun v => (v - listMin d) / S := by
      intro S; funext v; simp only [Function.comp_apply]; ring_nf
    rw [hsub, hdiv]

/-- C7 theorem: for a non-constant signal, `normalize_data` keeps the
length, attains minimum `0` and sums to `1`; for a constant signal every
entry is the degenerate value (`ℚ`'s zero-division model of the float
NaN), not an exception. -/
theorem normalize_data_props (d : List ℚ) :
    ((∃ a ∈ d, ∃ b ∈ d, a ≠ b) →
      (normalize_data d).length = d.length ∧
      listMin (normalize_data d) = 0 ∧
      (normalize_data d).sum = 1) ∧
    ((∀ a ∈ d, ∀ b ∈ d, a = b) → normalize_data d = List.replicate d.length 0) := by
  constructor
  · rintro ⟨a, ha, b, hb, hne⟩
    have hd : d ≠ [] := by rintro rfl; cases ha
    set m := listMin d with hm
    set s := (d.map fun v => v - m).sum with hs
    have hnonneg : ∀ y ∈ d.map fun v => v - m, 0 ≤ y := by
      rintro y hy
      rcases List.mem_map.mp hy with ⟨v, hv, rfl⟩
      exact sub_nonneg.mpr (listMin_le_mem d v hv)
    have hvgt : ∃ v ∈ d, m < v := by
      rcases eq_or_ne a m with rfl | hma
      · exact ⟨b, hb, lt_of_le_of_ne (listMin_le_mem d b hb) hne⟩
      · exact ⟨a, ha, lt_of_le_of_ne (listMin_le_mem d a ha) (Ne.symm hma)⟩
    have hspos : 0 < s := by
      rcases hvgt with ⟨v, hv, hlt⟩
      have hmem : v - m ∈ d.map fun v => v - m := List.mem_map.mpr ⟨v, hv, rfl⟩
      have := List.single_le_sum hnonneg _ hmem
      have hpos : 0 < v - m := sub_pos.mpr hlt
      linarith
    refine ⟨by simp [normalize_data], ?_, ?_⟩
    · apply listMin_eq_of
      · have hmm : m ∈ d := listMin_mem d hd
        exact List.mem_map.mpr ⟨m, hmm, by simp⟩
      · rintro y hy
        rcases List.mem_map.mp hy with ⟨v, hv, rfl⟩
        exact div_nonneg (sub_nonneg.mpr (listMin_le_mem d v hv)) hspos.le
    · show (d.map fun v => (v - m) / s).sum = 1
      have hfun : (fun v : ℚ => (v - m) / s) = fun v => (v - m) * s⁻¹ := by
        funext v; rw [div_eq_mul_inv]
      rw [hfun, List.sum_map_mul_right, ← hs, mul_inv_cancel₀ hspos.ne']
  · intro hconst
    rcases eq_or_ne d [] with rfl | hd
    · rfl
    · have hmm : listMin d ∈ d := listMin_mem d hd
      apply List.eq_replicate_iff.mpr
      refine ⟨by simp [normalize_data], ?_⟩
      rintro y hy
      rcases List.mem_map.mp hy with ⟨v, hv, rfl⟩
      rw [hconst v hv (listMin d) hmm]
      simp

/-- C7 witness: the non-constant signal `[1, 3]` normalizes to `[0, 1]`,
with minimum `0` and sum `1`. -/
theorem normalize_data_props_witness :
    (normalize_data [1, 3]).length = ([1, 3] : List ℚ).length ∧
    listMin (normalize_data [1, 3]) = 0 ∧
    (normalize_data [1, 3]).sum = 1 :=
  (normalize_data_props [1, 3]).1
    ⟨1, by simp, 3, by simp, by norm_num⟩

/-- Specification-side rendering of the matching step of automatic gating,
written from the spec's wording (§4.6 step 2): for each maxima-peak index,
find the first extrema-peak index within the threshold distance (in
original order, `List.find?`), average the two indices with rounding, and
remove the matched extrema index from further consideration; a maxima
index with no candidate contributes nothing. -/
def gateMatchSpec (thr : Nat) : List Nat → List Nat → List Nat
  | [], _ => []
  | m :: ms, ex =>
    match ex.find? fun e => decide (natDist m e ≤ thr) with
    | none => gateMatchSpec thr ms ex
    | some c => pyRoundHalf (m + c) :: gateMatchSpec thr ms (ex.erase c)

theorem find?_eq_head?_filter {α : Type} (p : α → Bool) (l : List α) :
    l.find? p = (l.filter p).head? := by
  induction l with
  | nil => rfl
  | cons a t ih =>
    by_cases h : p a
    · rw [List.find?_cons_of_pos _ h, List.filter_cons_of_pos h]; rfl
    · rw [List.find?_cons_of_neg _ (by simpa using h),
        List.filter_cons_of_neg (by simpa using h), ih]

/-- C1 theorem: the greedy matching loop of `automatic_gating` coincides
with its specification: candidates are the extrema within the threshold,
the first candidate in original order is matched (not the nearest), the
gated index is the rounded average, the matched extrema index is removed
for all later maxima, and an unmatched maxima index produces nothing. -/
theorem gateMatch_eq_spec (thr : Nat) (ms ex : List Nat) :
    gateMatch thr ms ex = gateMatchSpec thr ms ex := by
  induction ms generalizing ex with
  | nil => rfl
  | cons m ms ih =>
    rw [gateMatch, gateMatchSpec, find?_eq_head?_filter]
    cases (ex.filter fun e => decide (natDist m e ≤ thr)) with
    | nil => exact ih ex
    | cons c cs => simp only [List.head?]; rw [ih]

/-- C9 theorem: in `plot_data`, automatic gating runs exactly when both
gated-frame lists are empty; when either is nonempty the prior gated
frames and phase labels are returned untouched, and when both are empty
the result is that of `automatic_gating`. -/
theorem plot_data_gating_iff (both_extrema : Bool) (dist : Nat) (pct : ℚ) (thr : Nat)
    (maxima_signal extrema_signal : List ℚ) (lumen : Nat → ℚ)
    (gated_frames_dia gated_frames_sys : List Nat) (phases : Nat → Char) :
    ((plot_data_gating both_extrema dist pct thr maxima_signal extrema_signal lumen
        gated_frames_dia gated_frames_sys phases).1 = true ↔
      gated_frames_dia = [] ∧ gated_frames_sys = []) ∧
    ((gated_frames_dia ≠ [] ∨ gated_frames_sys ≠ []) →
      plot_data_gating both_extrema dist pct thr maxima_signal extrema_signal lumen
        gated_frames_dia gated_frames_sys phases =
        (false, (gated_frames_dia, gated_frames_sys, phases))) ∧
    (gated_frames_dia = [] → gated_frames_sys = [] →
      plot_data_gating both_extrema dist pct thr maxima_signal extrema_signal lumen
        gated_frames_dia gated_frames_sys phases =
        (true, automatic_gating both_extrema dist pct thr maxima_signal extrema_signal
          lumen phases)) := by
  unfold plot_data_gating
  by_cases h1 : gated_frames_dia = []
  · by_cases h2 : gated_frames_sys = []
    · subst h1; subst h2; simp
    · simp [h2, List.isEmpty_iff, h1]
  · simp [h1, List.isEmpty_iff]

/-- C9 witness: with no prior gated frames automatic gating runs; with a
prior diastolic frame it does not and the state is unchanged. -/
theorem plot_data_gating_iff_witness :
    (plot_data_gating false 1 0 5 [] [] (fun _ => 1) [] [] (fun _ => 'N')).1 = true ∧
    plot_data_gating false 1 0 5 [] [] (fun _ => 1) [3] [] (fun _ => 'N') =
      (false, ([3], [], fun _ => 'N')) :=
  ⟨(plot_data_gating_iff false 1 0 5 [] [] (fun _ => 1) [] [] (fun _ => 'N')).1.mpr
      ⟨rfl, rfl⟩,
    (plot_data_gating_iff false 1 0 5 [] [] (fun _ => 1) [3] [] (fun _ => 'N')).2.1
      (Or.inl (by simp))⟩

/-- C5 theorem: evaluating the scaling step of `plot_data` at composite
signals with means `10` and `5`: `factor_diff = 2` and the code takes the
`else` branch, multiplying the *maxima* signal (the larger-mean one) by
`2`, so the means end up `20` versus `5` instead of matching; the spec's
scenario expects the extrema signal to be scaled to `[10, 10]`. -/
theorem scale_signals_at_failing_input :
    scale_signals [10, 10] [5, 5] = ([20, 20], [5, 5]) ∧
    (scale_signals [10, 10] [5, 5]).2 ≠ [10, 10] := by
  have h : scale_signals [10, 10] [5, 5] = ([20, 20], [5, 5]) := by
    norm_num [scale_signals, listMean]
  exact ⟨h, by rw [h]; simp⟩

/-! Helper lemmas for the parity split and the phase stamping. -/

theorem everySecond_cons_tail {α : Type} (b : α) (rest : List α) :
    everySecond (b :: rest) = b :: everySecond rest.tail := by
  cases rest with
  | nil => rfl
  | cons c t => rfl

theorem everySecond_append_perm {α : Type} (l : List α) :
    (everySecond l ++ everySecond l.tail).Perm l := by
  induction l using everySecond.induct with
  | case1 => simp [everySecond]
  | case2 a => simp [everySecond]
  | case3 a b rest ih =>
    rw [show everySecond (a :: b :: rest) = a :: everySecond rest from rfl,
      show (a :: b :: rest).tail = b :: rest from rfl, everySecond_cons_tail]
    exact ((List.perm_middle.trans (ih.cons b)).cons a)

theorem foldl_update_of_not_mem {f : Nat} {l : List Nat} (c : Char)
    (p : Nat → Char) (hf : f ∉ l) :
    l.foldl (fun p g => Function.update p g c) p f = p f := by
  induction l generalizing p with
  | nil => rfl
  | cons a t ih =>
    have hfa : f ≠ a := fun h => hf (h ▸ List.mem_cons_self a t)
    have hft : f ∉ t := fun h => hf (List.mem_cons_of_mem a h)
    simp only [List.foldl_cons]
    rw [ih _ hft, Function.update_noteq hfa]

theorem foldl_update_of_mem {f : Nat} {l : List Nat} (c : Char)
    (p : Nat → Char) (hf : f ∈ l) :
    l.foldl (fun p g => Function.update p g c) p f = c := by
  induction l generalizing p with
  | nil => cases hf
  | cons a t ih =>
    simp only [List.foldl_cons]
    by_cases hft : f ∈ t
    · exact ih _ hft
    · have hfa : f = a := by
        rcases List.mem_cons.mp hf with h | h
        · exact h
        · exact absurd h hft
      subst hfa
      rw [foldl_update_of_not_mem c _ hft, Function.update_same]

/-- C2 theorem (amended): `automatic_gating` splits the gated index list
by parity of position, sums the lumen areas per half, labels the half
with the strictly larger sum Diastole and the other Systole, and stamps
each systolic frame `'S'` and each diastolic frame that is not also
systolic `'D'` (the systolic pass is stamped last and wins when the two
halves share a frame index). -/
theorem automatic_gating_labels (both_extrema : Bool) (dist : Nat) (pct : ℚ) (thr : Nat)
    (maxima_signal extrema_signal : List ℚ) (lumen : Nat → ℚ) (phases : Nat → Char) :
    (((everySecond (gatedIndicesOf both_extrema dist pct thr maxima_signal
            extrema_signal).tail).map lumen).sum <
        ((everySecond (gatedIndicesOf both_extrema dist pct thr maxima_signal
            extrema_signal)).map lumen).sum →
      (automatic_gating both_extrema dist pct thr maxima_signal extrema_signal lumen
          phases).1 =
        everySecond (gatedIndicesOf both_extrema dist pct thr maxima_signal extrema_signal) ∧
      (automatic_gating both_extrema dist pct thr maxima_signal extrema_signal lumen
          phases).2.1 =
        everySecond (gatedIndicesOf both_extrema dist pct thr maxima_signal
          extrema_signal).tail) ∧
    (((everySecond (gatedIndicesOf both_extrema dist pct thr maxima_signal
            extrema_signal)).map lumen).sum <
        ((everySecond (gatedIndicesOf both_extrema dist pct thr maxima_signal
            extrema_signal).tail).map lumen).sum →
      (automatic_gating both_extrema dist pct thr maxima_signal extrema_signal lumen
          phases).1 =
        everySecond (gatedIndicesOf both_extrema dist pct thr maxima_signal
          extrema_signal).tail ∧
      (automatic_gating both_extrema dist pct thr maxima_signal extrema_signal lumen
          phases).2.1 =
        everySecond (gatedIndicesOf both_extrema dist pct thr maxima_signal extrema_signal)) ∧
    (∀ f ∈ (automatic_gating both_extrema dist pct thr maxima_signal extrema_signal lumen
        phases).2.1,
      (automatic_gating both_extrema dist pct thr maxima_signal extrema_signal lumen
        phases).2.2 f = 'S') ∧
    (∀ f ∈ (automatic_gating both_extrema dist pct thr maxima_signal extrema_signal lumen
        phases).1,
      f ∉ (automatic_gating both_extrema dist pct thr maxima_signal extrema_signal lumen
        phases).2.1 →
      (automatic_gating both_extrema dist pct thr maxima_signal extrema_signal lumen
        phases).2.2 f = 'D') := by
  set g := gatedIndicesOf both_extrema dist pct thr maxima_signal extrema_signal with hg
  set fh := everySecond g with hfh
  set sh := everySecond g.tail with hsh
  have hag : automatic_gating both_extrema dist pct thr maxima_signal extrema_signal lumen
      phases =
      (if (sh.map lumen).sum < (fh.map lumen).sum then fh else sh,
       if (sh.map lumen).sum < (fh.map lumen).sum then sh else fh,
       (if (sh.map lumen).sum < (fh.map lumen).sum then sh else fh).foldl
          (fun p f => Function.update p f 'S')
          ((if (sh.map lumen).sum < (fh.map lumen).sum then fh else sh).foldl
            (fun p f => Function.update p f 'D') phases)) := rfl
  rw [hag]
  by_cases hlt : (sh.map lumen).sum < (fh.map lumen).sum
  · simp only [if_pos hlt]
    refine ⟨fun _ => ⟨trivial, trivial⟩, fun h => absurd h (lt_asymm hlt), ?_, ?_⟩
    · intro f hf
      exact foldl_update_of_mem 'S' _ hf
    · intro f hf hnf
      rw [foldl_update_of_not_mem 'S' _ hnf, foldl_update_of_mem 'D' _ hf]
  · simp only [if_neg hlt]
    refine ⟨fun h => absurd h hlt, fun _ => ⟨trivial, trivial⟩, ?_, ?_⟩
    · intro f hf
      exact foldl_update_of_mem 'S' _ hf
    · intro f hf hnf
      rw [foldl_update_of_not_mem 'S' _ hnf, foldl_update_of_mem 'D' _ hf]

theorem partition_exactly_one {g dia sys : List Nat} (hperm : (dia ++ sys).Perm g)
    (hnd : g.Nodup) : ∀ f, f ∈ g ↔ (f ∈ dia ∧ f ∉ sys) ∨ (f ∈ sys ∧ f ∉ dia) := by
  have hnd2 : (dia ++ sys).Nodup := hperm.nodup_iff.mpr hnd
  rcases List.nodup_append.mp hnd2 with ⟨_, _, hdisj⟩
  intro f
  constructor
  · intro hf
    rcases List.mem_append.mp (hperm.mem_iff.mpr hf) with h | h
    · exact Or.inl ⟨h, fun hs => hdisj h hs⟩
    · exact Or.inr ⟨h, fun hd => hdisj hd h⟩
  · rintro (⟨h, _⟩ | ⟨h, _⟩)
    · exact hperm.mem_iff.mp (List.mem_append.mpr (Or.inl h))
    · exact hperm.mem_iff.mp (List.mem_append.mpr (Or.inr h))

/-- C3 theorem (amended): the diastole and systole lists together are a
permutation of the gated index list, and whenever that list has no
duplicate values (which holds in maxima-only peak detection) the two sets
are disjoint and every gated frame belongs to exactly one of them. -/
theorem automatic_gating_partition (both_extrema : Bool) (dist : Nat) (pct : ℚ) (thr : Nat)
    (maxima_signal extrema_signal : List ℚ) (lumen : Nat → ℚ) (phases : Nat → Char) :
    (((automatic_gating both_extrema dist pct thr maxima_signal extrema_signal lumen
          phases).1 ++
        (automatic_gating both_extrema dist pct thr maxima_signal extrema_signal lumen
          phases).2.1).Perm
      (gatedIndicesOf both_extrema dist pct thr maxima_signal extrema_signal)) ∧
    ((gatedIndicesOf both_extrema dist pct thr maxima_signal extrema_signal).Nodup →
      (automatic_gating both_extrema dist pct thr maxima_signal extrema_signal lumen
          phases).1.Disjoint
        (automatic_gating both_extrema dist pct thr maxima_signal extrema_signal lumen
          phases).2.1 ∧
      ∀ f, f ∈ gatedIndicesOf both_extrema dist pct thr maxima_signal extrema_signal ↔
        (f ∈ (automatic_gating both_extrema dist pct thr maxima_signal extrema_signal lumen
            phases).1 ∧
          f ∉ (automatic_gating both_extrema dist pct thr maxima_signal extrema_signal lumen
            phases).2.1) ∨
        (f ∈ (automatic_gating both_extrema dist pct thr maxima_signal extrema_signal lumen
            phases).2.1 ∧
          f ∉ (automatic_gating both_extrema dist pct thr maxima_signal extrema_signal lumen
            phases).1)) := by
  set g := gatedIndicesOf both_extrema dist pct thr maxima_signal extrema_signal with hg
  set fh := everySecond g with hfh
  set sh := everySecond g.tail with hsh
  have hag : automatic_gating both_extrema dist pct thr maxima_signal extrema_signal lumen
      phases =
      (if (sh.map lumen).sum < (fh.map lumen).sum then fh else sh,
       if (sh.map lumen).sum < (fh.map lumen).sum then sh else fh,
       (if (sh.map lumen).sum < (fh.map lumen).sum then sh else fh).foldl
          (fun p f => Function.update p f 'S')
          ((if (sh.map lumen).sum < (fh.map lumen).sum then fh else sh).foldl
            (fun p f => Function.update p f 'D') phases)) := rfl
  rw [hag]
  have hperm0 : (fh ++ sh).Perm g := everySecond_append_perm g
  by_cases hlt : (sh.map lumen).sum < (fh.map lumen).sum
  · simp only [if_pos hlt]
    refine ⟨hperm0, fun hnd => ⟨?_, partition_exactly_one hperm0 hnd⟩⟩
    rcases List.nodup_append.mp (hperm0.nodup_iff.mpr hnd) with ⟨_, _, hdisj⟩
    exact hdisj
  · simp only [if_neg hlt]
    have hperm1 : (sh ++ fh).Perm g := List.perm_append_comm.trans hperm0
    refine ⟨hperm1, fun hnd => ⟨?_, partition_exactly_one hperm1 hnd⟩⟩
    rcases List.nodup_append.mp (hperm1.nodup_iff.mpr hnd) with ⟨_, _, hdisj⟩
    exact hdisj

/-- Evaluation of the gated indices on a simple concrete input: the signal
`[0, 2, 0]` has a single peak at index `1` for both composite signals, and
the matching loop gates index `1`. -/
theorem gated_simple_eval : gatedIndicesOf false 1 0 5 [0, 2, 0] [0, 2, 0] = [1] := by
  have h1 : percentile [0, 2, 0] 0 = 0 := by
    norm_num [percentile, List.insertionSort, List.orderedInsert]
  have h2 : identify_extrema [0, 2, 0] 1 0 = ([1], [1]) := by
    simp only [identify_extrema, h1]
    decide
  simp only [gatedIndicesOf, gatingMaximaIndices, h2]
  decide

/-- C2 witness: on the concrete signal `[0, 2, 0]` (one gated frame, with
the first half's lumen sum strictly larger) the theorem applies and the
diastole set is the first half and the systole set the second. -/
theorem automatic_gating_labels_witness :
    (automatic_gating false 1 0 5 [0, 2, 0] [0, 2, 0] (fun _ => 1) (fun _ => 'N')).1 =
      everySecond (gatedIndicesOf false 1 0 5 [0, 2, 0] [0, 2, 0]) ∧
    (automatic_gating false 1 0 5 [0, 2, 0] [0, 2, 0] (fun _ => 1) (fun _ => 'N')).2.1 =
      everySecond (gatedIndicesOf false 1 0 5 [0, 2, 0] [0, 2, 0]).tail :=
  (automatic_gating_labels false 1 0 5 [0, 2, 0] [0, 2, 0] (fun _ => 1) (fun _ => 'N')).1
    (by rw [gated_simple_eval]; simp [everySecond])

/-- C3 witness: on the same concrete input the gated index list `[1]` has
no duplicates, so the theorem yields disjointness of the two phase sets. -/
theorem automatic_gating_partition_witness :
    (automatic_gating false 1 0 5 [0, 2, 0] [0, 2, 0] (fun _ => 1) (fun _ => 'N')).1.Disjoint
      (automatic_gating false 1 0 5 [0, 2, 0] [0, 2, 0] (fun _ => 1) (fun _ => 'N')).2.1 :=
  ((automatic_gating_partition false 1 0 5 [0, 2, 0] [0, 2, 0] (fun _ => 1)
      (fun _ => 'N')).2 (by rw [gated_simple_eval]; decide)).1

/-- Evaluation of the gated indices on the degenerate concrete input used
by the counterexamples below.  With `both_extrema` configured, the maxima
signal `[0, 2, -2, 0, 0]` contributes the adjacent extrema `[1, 2]`
(maximum at 1, minimum at 2) and the extrema signal `[0, 0, 2, -2, 0]`
contributes `[2, 3]`; the greedy matching then produces
`round(1.5) = 2` and `round(2.5) = 2` (banker's rounding), i.e. the same
gated frame twice. -/
theorem gated_cex_eval :
    gatedIndicesOf true 1 25 5 [0, 2, -2, 0, 0] [0, 0, 2, -2, 0] = [2, 2] := by
  have h1 : percentile [0, 2, -2, 0, 0] 25 = 0 := by
    norm_num [percentile, List.insertionSort, List.orderedInsert]
  have h2 : identify_extrema [0, 2, -2, 0, 0] 1 25 = ([1, 2], [1]) := by
    simp only [identify_extrema, h1]
    decide
  have h3 : percentile [0, 0, 2, -2, 0] 25 = 0 := by
    norm_num [percentile, List.insertionSort, List.orderedInsert]
  have h4 : identify_extrema [0, 0, 2, -2, 0] 1 25 = ([2, 3], [2]) := by
    simp only [identify_extrema, h3]
    decide
  simp only [gatedIndicesOf, gatingMaximaIndices, h2, h4]
  decide

/-- Full evaluation of `automatic_gating` on the degenerate input: both
halves of `[2, 2]` are `[2]`, their lumen sums tie, so the second half
becomes the diastole set and the first the systole set -- the same frame
index in both -- and the phase map stamps frame `2` first `'D'`, then
`'S'`. -/
theorem auto_cex_eval :
    automatic_gating true 1 25 5 [0, 2, -2, 0, 0] [0, 0, 2, -2, 0] (fun _ => 1)
        (fun _ => 'N') =
      ([2], [2],
        Function.update (Function.update (fun _ => 'N') 2 'D') 2 'S') := by
  have hag : automatic_gating true 1 25 5 [0, 2, -2, 0, 0] [0, 0, 2, -2, 0] (fun _ => 1)
      (fun _ => 'N') =
      (let g := gatedIndicesOf true 1 25 5 [0, 2, -2, 0, 0] [0, 0, 2, -2, 0]
       let fh := everySecond g
       let sh := everySecond g.tail
       let dia := if ((sh.map fun _ => (1 : ℚ)).sum < (fh.map fun _ => (1 : ℚ)).sum)
         then fh else sh
       let sys := if ((sh.map fun _ => (1 : ℚ)).sum < (fh.map fun _ => (1 : ℚ)).sum)
         then sh else fh
       (dia, sys, sys.foldl (fun p f => Function.update p f 'S')
          (dia.foldl (fun p f => Function.update p f 'D') (fun _ => 'N')))) := rfl
  rw [hag, gated_cex_eval]
  have hES : everySecond ([2, 2] : List Nat) = [2] := rfl
  have hEStail : everySecond ([2, 2] : List Nat).tail = [2] := rfl
  simp only [hES, hEStail, ite_self]
  simp only [List.foldl_cons, List.foldl_nil]

/-- C3 counterexample: on the degenerate input the gated frame `2` lies in
both the diastole set and the systole set, so the two sets are neither
disjoint nor is every gated frame in exactly one of them. -/
theorem automatic_gating_overlap_cex :
    2 ∈ (automatic_gating true 1 25 5 [0, 2, -2, 0, 0] [0, 0, 2, -2, 0] (fun _ => 1)
        (fun _ => 'N')).1 ∧
    2 ∈ (automatic_gating true 1 25 5 [0, 2, -2, 0, 0] [0, 0, 2, -2, 0] (fun _ => 1)
        (fun _ => 'N')).2.1 := by
  rw [auto_cex_eval]
  exact ⟨List.mem_cons_self _ _, List.mem_cons_self _ _⟩

/-- C2 counterexample: on the degenerate input frame `2` belongs to the
diastole set, yet its final phase label is `'S'` (the systole stamping
pass runs last and overwrites it), so not every frame contained in the
diastole set is stamped `'D'`. -/
theorem automatic_gating_stamp_cex :
    2 ∈ (automatic_gating true 1 25 5 [0, 2, -2, 0, 0] [0, 0, 2, -2, 0] (fun _ => 1)
        (fun _ => 'N')).1 ∧
    (automatic_gating true 1 25 5 [0, 2, -2, 0, 0] [0, 0, 2, -2, 0] (fun _ => 1)
        (fun _ => 'N')).2.2 2 ≠ 'D' := by
  rw [auto_cex_eval]
  refine ⟨List.mem_cons_self _ _, ?_⟩
  show Function.update (Function.update (fun _ => 'N') 2 'D') 2 'S' 2 ≠ 'D'
  rw [Function.update_same]
  decide

/-! Characterisation of the peak predicate and structural lemmas about
`find_peaks`, towards the C4 theorem. -/

theorem isPeakB_iff (x : List ℚ) (m : Nat) :
    isPeakB x m = true ↔ ∃ l r, 1 ≤ l ∧ l ≤ r ∧ r + 2 ≤ x.length ∧
      (∀ k, l ≤ k → k ≤ r → x.getD k 0 = x.getD l 0) ∧
      x.getD (l - 1) 0 < x.getD l 0 ∧ x.getD (r + 1) 0 < x.getD l 0 ∧
      m = (l + r) / 2 := by
  simp only [isPeakB, isMaxRunB, List.any_eq_true, List.mem_range, Bool.and_eq_true,
    decide_eq_true_eq, List.all_eq_true, List.mem_range'_1]
  constructor
  · rintro ⟨l, hl, r, hr, ⟨⟨⟨⟨⟨h1, h2⟩, h3⟩, h4⟩, h5⟩, h6⟩, hm⟩
    exact ⟨l, r, h1, h2, h3, fun k hk1 hk2 => h4 k ⟨hk1, by omega⟩, h5, h6, hm⟩
  · rintro ⟨l, r, h1, h2, h3, h4, h5, h6, hm⟩
    exact ⟨l, by omega, r, by omega,
      ⟨⟨⟨⟨⟨h1, h2⟩, h3⟩, fun k hk => h4 k hk.1 (by omega)⟩, h5⟩, h6⟩, hm⟩

theorem getD_map_neg (x : List ℚ) (k : Nat) :
    (x.map fun v => -v).getD k 0 = -(x.getD k 0) := by
  induction x generalizing k with
  | nil => simp [List.getD]
  | cons a t ih =>
    cases k with
    | zero => simp
    | succ n => simpa using ih n

/-- A frame index cannot simultaneously be a reported local maximum of a
signal and of its negation: the two maximal flat runs around the midpoint
would have to carry the same value, while their edges rise in one signal
and fall in the other. -/
theorem not_peak_both (x : List ℚ) (m : Nat) (h1 : isPeakB x m = true)
    (h2 : isPeakB (x.map fun v => -v) m = true) : False := by
  obtain ⟨l1, r1, ha1, ha2, ha3, hconst1, hleft1, _, hm1⟩ := (isPeakB_iff x m).mp h1
  obtain ⟨l2, r2, hb1, hb2, hb3, hconst2, hleft2, _, hm2⟩ := (isPeakB_iff _ m).mp h2
  rw [List.length_map] at hb3
  have hconst2' : ∀ k, l2 ≤ k → k ≤ r2 → x.getD k 0 = x.getD l2 0 := by
    intro k hk1 hk2
    have := hconst2 k hk1 hk2
    rw [getD_map_neg, getD_map_neg] at this
    linarith
  have hleft2' : x.getD l2 0 < x.getD (l2 - 1) 0 := by
    rw [getD_map_neg, getD_map_neg] at hleft2
    linarith
  have hm1a : l1 ≤ m := by omega
  have hm1b : m ≤ r1 := by omega
  have hm2a : l2 ≤ m := by omega
  have hm2b : m ≤ r2 := by omega
  have hc : x.getD l2 0 = x.getD l1 0 := by
    rw [← hconst2' m hm2a hm2b, hconst1 m hm1a hm1b]
  rcases lt_trichotomy l1 l2 with hlt | heq | hgt
  · have h21 : x.getD (l2 - 1) 0 = x.getD l1 0 :=
      hconst1 (l2 - 1) (by omega) (by omega)
    rw [h21, hc] at hleft2'
    exact lt_irrefl _ hleft2'
  · subst heq
    rw [hc] at hleft2'
    exact lt_irrefl _ (hleft1.trans hleft2')
  · have h12 : x.getD (l1 - 1) 0 = x.getD l2 0 :=
      hconst2' (l1 - 1) (by omega) (by omega)
    rw [hc] at h12
    rw [h12] at hleft1
    exact lt_irrefl _ hleft1

theorem sbdGo_sublist (dist : Nat) (prio : List Nat) :
    ∀ keep : List Nat, (sbdGo dist prio keep).Sublist keep := by
  induction prio with
  | nil => intro keep; exact List.Sublist.refl _
  | cons a rest ih =>
    intro keep
    rw [sbdGo]
    by_cases ha : a ∈ keep
    · rw [if_pos ha]
      exact (ih _).trans (List.filter_sublist keep)
    · rw [if_neg ha]
      exact ih keep

theorem sbdGo_sep (dist : Nat) (prio : List Nat) :
    ∀ keep p q, p ∈ prio → p ∈ sbdGo dist prio keep → q ∈ sbdGo dist prio keep →
      q ≠ p → dist ≤ natDist q p := by
  induction prio with
  | nil => intro keep p q hp _ _ _; cases hp
  | cons a rest ih =>
    intro keep p q hp hpr hqr hne
    rw [sbdGo] at hpr hqr
    by_cases ha : a ∈ keep
    · rw [if_pos ha] at hpr hqr
      rcases eq_or_ne p a with rfl | hpa
      · have hq := (sbdGo_sublist dist rest _).subset hqr
        rcases List.mem_filter.mp hq with ⟨_, hcond⟩
        rcases Bool.or_eq_true _ _ |>.mp hcond with h | h
        · exact absurd (of_decide_eq_true h) hne
        · exact of_decide_eq_true h
      · exact ih _ p q ((List.mem_cons.mp hp).resolve_left hpa) hpr hqr hne
    · rw [if_neg ha] at hpr hqr
      rcases eq_or_ne p a with rfl | hpa
      · exact absurd ((sbdGo_sublist dist rest keep).subset hpr) ha
      · exact ih keep p q ((List.mem_cons.mp hp).resolve_left hpa) hpr hqr hne

theorem mem_sbdPrio {x : List ℚ} {peaks : List Nat} {p : Nat} (hp : p ∈ peaks) :
    p ∈ sbdPrio x peaks := by
  rw [sbdPrio, List.mem_reverse]
  exact (List.perm_insertionSort _ peaks).mem_iff.mpr hp

theorem find_peaks_subset_local_maxima (x : List ℚ) (dist : Nat) (h : ℚ) :
    ∀ p ∈ find_peaks x dist h, p ∈ local_maxima x := by
  intro p hp
  have h1 := (sbdGo_sublist dist _ _).subset hp
  exact (List.filter_sublist _).subset h1

theorem find_peaks_sep (x : List ℚ) (dist : Nat) (h : ℚ) :
    ∀ p ∈ find_peaks x dist h, ∀ q ∈ find_peaks x dist h, q ≠ p →
      dist ≤ natDist q p := by
  intro p hp q hq hne
  have hp1 : p ∈ (local_maxima x).filter fun p => decide (h ≤ x.getD p 0) :=
    (sbdGo_sublist dist _ _).subset hp
  exact sbdGo_sep dist _ _ p q (mem_sbdPrio hp1) hp hq hne

theorem local_maxima_pairwise_lt (x : List ℚ) :
    (local_maxima x).Pairwise (· < ·) :=
  (List.pairwise_lt_range x.length).sublist (List.filter_sublist _)

theorem find_peaks_pairwise_lt (x : List ℚ) (dist : Nat) (h : ℚ) :
    (find_peaks x dist h).Pairwise (· < ·) :=
  (local_maxima_pairwise_lt x).sublist
    ((sbdGo_sublist dist _ _).trans (List.filter_sublist _))

theorem mem_local_maxima_isPeakB {x : List ℚ} {p : Nat} (hp : p ∈ local_maxima x) :
    isPeakB x p = true :=
  (List.mem_filter.mp hp).2

theorem natDist_comm (a b : Nat) : natDist a b = natDist b a := by
  simp [natDist, Nat.max_comm, Nat.min_comm]

theorem pairwise_sep_of {dist : Nat} (l : List Nat) (hlt : l.Pairwise (· < ·))
    (hsep : ∀ p ∈ l, ∀ q ∈ l, q ≠ p → dist ≤ natDist q p) :
    l.Pairwise fun a b => dist ≤ natDist a b := by
  induction l with
  | nil => exact List.Pairwise.nil
  | cons a t ih =>
    rcases List.pairwise_cons.mp hlt with ⟨hlta, hltt⟩
    refine List.pairwise_cons.mpr ⟨?_, ih hltt fun p hp q hq =>
      hsep p (List.mem_cons_of_mem _ hp) q (List.mem_cons_of_mem _ hq)⟩
    intro b hb
    have hne : b ≠ a := ne_of_gt (hlta b hb)
    have h := hsep a (List.mem_cons_self _ _) b (List.mem_cons_of_mem _ hb) hne
    rwa [natDist_comm] at h

theorem find_peaks_nodup (x : List ℚ) (dist : Nat) (h : ℚ) :
    (find_peaks x dist h).Nodup :=
  (find_peaks_pairwise_lt x dist h).imp ne_of_lt

theorem maxima_minima_disjoint (x : List ℚ) (dist : Nat) (h : ℚ) :
    (find_peaks x dist h).Disjoint (find_peaks (x.map fun v => -v) dist h) := by
  intro p hpM hpN
  exact not_peak_both x p
    (mem_local_maxima_isPeakB (find_peaks_subset_local_maxima x dist h p hpM))
    (mem_local_maxima_isPeakB (find_peaks_subset_local_maxima _ dist h p hpN))

/-- C4 theorem (amended): the first component of `identify_extrema` is
strictly increasing; the configured minimum distance separates
consecutive maxima from each other and consecutive minima from each
other, but a maximum and a minimum may be closer than the minimum
distance (see the counterexample). -/
theorem identify_extrema_sorted_sep (x : List ℚ) (dist : Nat) (pct : ℚ) :
    List.Sorted (· < ·) (identify_extrema x dist pct).1 ∧
    (identify_extrema x dist pct).2.Pairwise (fun a b => dist ≤ natDist a b) ∧
    (find_peaks (x.map fun v => -v) dist (percentile x pct)).Pairwise
      (fun a b => dist ≤ natDist a b) := by
  have hM := find_peaks_pairwise_lt x dist (percentile x pct)
  have hN := find_peaks_pairwise_lt (x.map fun v => -v) dist (percentile x pct)
  refine ⟨?_, ?_, ?_⟩
  · show List.Sorted (· < ·) (List.insertionSort (· ≤ ·)
      (find_peaks x dist (percentile x pct) ++
        find_peaks (x.map fun v => -v) dist (percentile x pct)))
    have hnd : (find_peaks x dist (percentile x pct) ++
        find_peaks (x.map fun v => -v) dist (percentile x pct)).Nodup :=
      List.nodup_append.mpr ⟨find_peaks_nodup x dist _, find_peaks_nodup _ dist _,
        maxima_minima_disjoint x dist _⟩
    have hsorted : List.Sorted (· ≤ ·) (List.insertionSort (· ≤ ·)
        (find_peaks x dist (percentile x pct) ++
          find_peaks (x.map fun v => -v) dist (percentile x pct))) :=
      List.sorted_insertionSort _ _
    have hnd2 := (List.perm_insertionSort (· ≤ ·) _).nodup_iff.mpr hnd
    exact (hsorted.and hnd2).imp fun hab => lt_of_le_of_ne hab.1 hab.2
  · show (find_peaks x dist (percentile x pct)).Pairwise fun a b => dist ≤ natDist a b
    exact pairwise_sep_of _ hM fun p hp q hq hne =>
      find_peaks_sep x dist _ p hp q hq hne
  · exact pairwise_sep_of _ hN fun p hp q hq hne =>
      find_peaks_sep _ dist _ p hp q hq hne

/-- C4 counterexample: on the signal `[0, 2, -2, 0, 0]` with configured
minimum distance `2`, `identify_extrema` returns the union `[1, 2]` -- a
maximum at index 1 directly followed by a minimum at index 2 -- whose
consecutive indices differ by `1 < 2`. -/
theorem identify_extrema_gap_cex :
    (identify_extrema [0, 2, -2, 0, 0] 2 25).1 = [1, 2] ∧ ¬ (2 ≤ natDist 1 2) := by
  constructor
  · have h1 : percentile [0, 2, -2, 0, 0] 25 = 0 := by
      norm_num [percentile, List.insertionSort, List.orderedInsert]
    simp only [identify_extrema, h1]
    decide
  · decide

/-- Specification-side formatting of one maximal run, written from the
amended wording: a run of three or more consecutive numbers renders as
`'first-last'`, a run of two as the two numbers and a singleton as the
single number, joined by `', '`. -/
def formatRunSpec : List Nat → String
  | [] => ""
  | [a] => toString a
  | [a, b] => toString a ++ ", " ++ toString b
  | a :: _ :: c :: t => toString a ++ "-" ++ toString ((c :: t).getLastD 0)

theorem formatRun_eq_spec (r : List Nat) : formatRun r = formatRunSpec r := by
  match r with
  | [] => rfl
  | [a] => rfl
  | [a, b] => rfl
  | a :: b :: c :: t =>
    show formatRun (a :: b :: c :: t) = toString a ++ "-" ++ toString ((c :: t).getLastD 0)
    rw [formatRun, if_pos (by simp)]
    have h1 : (a :: b :: c :: t).headD 0 = a := rfl
    have h2 : (a :: b :: c :: t).getLastD 0 = (c :: t).getLastD 0 := by
      simp [List.getLastD_cons]
    rw [h1, h2]

theorem takeRun_exact (r0 : List Nat) : ∀ (a : Nat) (rest : List Nat),
    List.Chain' (fun x y => y = x + 1) (a :: r0) →
    (∀ b, rest.head? = some b → b ≠ (a :: r0).getLastD 0 + 1) →
    takeRun a (r0 ++ rest) = (r0, rest) := by
  induction r0 with
  | nil =>
    intro a rest _ hrest
    match rest with
    | [] => rfl
    | b :: t =>
      have hb : b ≠ a + 1 := by
        have := hrest b rfl
        simpa using this
      simp only [List.nil_append, takeRun, if_neg hb]
  | cons c r0' ih =>
    intro a rest hch hrest
    rcases List.chain'_cons.mp hch with ⟨hca, hch'⟩
    have hlast : (a :: c :: r0').getLastD 0 = (c :: r0').getLastD 0 := by
      simp [List.getLastD_cons]
    show takeRun a (c :: (r0' ++ rest)) = (c :: r0', rest)
    rw [takeRun, if_pos hca, ih c rest hch' (by rw [← hlast]; exact hrest)]

theorem splitRuns_flatten (rs : List (List Nat))
    (hne : ∀ r ∈ rs, r ≠ [])
    (hchain : ∀ r ∈ rs, List.Chain' (fun a b => b = a + 1) r)
    (hsep : List.Chain' (fun r s => r.getLastD 0 + 1 ≠ s.headD 0) rs) :
    splitRuns rs.flatten = rs := by
  induction rs with
  | nil => simp [splitRuns]
  | cons r rs' ih =>
    match r, hne r (List.mem_cons_self _ _) with
    | a :: r0, _ =>
      have hrest : ∀ b, rs'.flatten.head? = some b → b ≠ (a :: r0).getLastD 0 + 1 := by
        intro b hb
        match rs', hsep with
        | [], _ => simp at hb
        | s :: rs'', hsep2 =>
          match s, hne s (List.mem_cons_of_mem _ (List.mem_cons_self _ _)) with
          | c :: s', _ =>
            have hs := (List.chain'_cons.mp hsep2).1
            have hbc : b = c := by
              have hhead : ((c :: s') :: rs'').flatten.head? = some c := rfl
              rw [hhead] at hb
              exact (Option.some.inj hb).symm
            subst hbc
            intro hEq
            exact hs hEq.symm
      have h1 : takeRun a (r0 ++ rs'.flatten) = (r0, rs'.flatten) :=
        takeRun_exact r0 a rs'.flatten (hchain _ (List.mem_cons_self _ _)) hrest
      show splitRuns (a :: (r0 ++ rs'.flatten)) = (a :: r0) :: rs'
      rw [splitRuns, h1]
      exact congrArg _ (ih (fun r hr => hne r (List.mem_cons_of_mem _ hr))
        (fun r hr => hchain r (List.mem_cons_of_mem _ hr)) hsep.tail)

/-- C6 theorem (amended): for a sorted duplicate-free missing-frame list
decomposed into its maximal runs of consecutive numbers,
`connect_consecutive_frames` renders runs of three or more numbers in
compressed `'first-last'` notation, renders shorter runs number by
number, and separates everything with `', '`; in particular
`[13, 14, 16]` renders as `"13, 14, 16"` (not `"13-14, 16"`). -/
theorem connect_consecutive_frames_runs (rs : List (List Nat))
    (hne : ∀ r ∈ rs, r ≠ [])
    (hchain : ∀ r ∈ rs, List.Chain' (fun a b => b = a + 1) r)
    (hsep : List.Chain' (fun r s => r.getLastD 0 + 1 ≠ s.headD 0) rs)
    (hsorted : List.Sorted (· < ·) rs.flatten) :
    connect_consecutive_frames rs.flatten =
      String.intercalate ", " (rs.map formatRunSpec) := by
  have hnodup : rs.flatten.Nodup := hsorted.imp fun h => ne_of_lt h
  have hdedup : rs.flatten.dedup = rs.flatten := hnodup.dedup
  have hsortle : List.Sorted (· ≤ ·) rs.flatten := hsorted.imp le_of_lt
  rw [connect_consecutive_frames, hdedup, hsortle.insertionSort_eq,
    splitRuns_flatten rs hne hchain hsep]
  exact congrArg _ (List.map_congr_left fun r _ => formatRun_eq_spec r)

/-- C6 counterexample: the missing-frame list `[13, 14, 16]` renders as
`"13, 14, 16"` -- the two-element run `[13, 14]` is not compressed -- and
not as `"13-14, 16"` as the claim states. -/
theorem connect_consecutive_frames_cex :
    connect_consecutive_frames [13, 14, 16] = "13, 14, 16" ∧
    connect_consecutive_frames [13, 14, 16] ≠ "13-14, 16" := by
  have h0 : List.insertionSort (· ≤ ·) ([13, 14, 16] : List Nat).dedup = [13, 14, 16] := by
    decide
  have hs : splitRuns [13, 14, 16] = [[13, 14], [16]] := by
    rw [splitRuns, show takeRun 13 [14, 16] = ([14], [16]) by decide,
      splitRuns, show takeRun 16 [] = ([], []) by decide, splitRuns]
  have h : connect_consecutive_frames [13, 14, 16] = "13, 14, 16" := by
    rw [connect_consecutive_frames]
    rw [h0, hs]
    decide
  exact ⟨h, by rw [h]; decide⟩

/-- C6 witness: instantiating the run decomposition `[[13, 14], [16]]`
discharges every hypothesis and renders `"13, 14, 16"`. -/
theorem connect_consecutive_frames_runs_witness :
    connect_consecutive_frames [13, 14, 16] =
      String.intercalate ", " ([[13, 14], [16]].map formatRunSpec) :=
  connect_consecutive_frames_runs [[13, 14], [16]] (by decide)
    (by
      intro r hr
      rcases List.mem_cons.mp hr with rfl | hr
      · exact List.chain'_cons.mpr ⟨rfl, List.chain'_singleton _⟩
      · rcases List.mem_cons.mp hr with rfl | hr
        · exact List.chain'_singleton _
        · cases hr)
    (by
      refine List.chain'_cons.mpr ⟨?_, List.chain'_singleton _⟩
      decide)
    (by decide)

theorem smooth_curve_one (x : List ℚ) : smooth_curve 1 x = x := by
  have hker : List.replicate 1 (1 / ((1 : Nat) : ℚ)) = [1] := by norm_num
  rw [smooth_curve, hker]
  have hconv : convolve_full x [1] = (List.range x.length).map fun t => x.getD t 0 := by
    rw [convolve_full]
    have hlen : x.length + ([1] : List ℚ).length - 1 = x.length := by simp
    rw [hlen]
    apply List.map_congr_left
    intro t ht
    rw [List.mem_range] at ht
    show ((List.range 1).map fun j =>
      if j ≤ t ∧ t - j < x.length then x.getD (t - j) 0 * ([1] : List ℚ).getD j 0 else 0).sum =
      x.getD t 0
    rw [show List.range 1 = [0] from rfl]
    simp only [List.map_cons, List.map_nil, List.sum_cons, List.sum_nil]
    rw [if_pos ⟨Nat.zero_le t, by simpa using ht⟩]
    simp [List.getD]
  rw [hconv]
  have hid : (List.range x.length).map (fun t => x.getD t 0) = x := by
    apply List.ext_getElem
    · simp
    · intro i h1 h2
      simp [List.getD_eq_getElem?_getD, List.getElem?_eq_getElem h2]
  show (((List.range x.length).map fun t => x.getD t 0).drop 0).take x.length = x
  rw [List.drop_zero, hid, List.take_length]

theorem nfAdd_none_right (a : Option ℚ) : nfAdd a none = none := by
  cases a <;> rfl

theorem zipWith_nfAdd_none_right :
    ∀ (acc l2 : List (Option ℚ)), (∀ b ∈ l2, b = none) →
      ∀ y ∈ List.zipWith nfAdd acc l2, y = none := by
  intro acc
  induction acc with
  | nil => intro l2 _ y hy; simp at hy
  | cons a t ih =>
    intro l2 hl2 y hy
    match l2 with
    | [] => simp at hy
    | b :: l2' =>
      rcases List.mem_cons.mp hy with rfl | hy'
      · rw [hl2 b (List.mem_cons_self _ _)]
        exact nfAdd_none_right a
      · exact ih l2' (fun c hc => hl2 c (List.mem_cons_of_mem _ hc)) y hy'

theorem zipWith_nfAdd_none_left :
    ∀ (acc l2 : List (Option ℚ)), (∀ a ∈ acc, a = none) →
      ∀ y ∈ List.zipWith nfAdd acc l2, y = none := by
  intro acc
  induction acc with
  | nil => intro l2 _ y hy; simp at hy
  | cons a t ih =>
    intro l2 hacc y hy
    match l2 with
    | [] => simp at hy
    | b :: l2' =>
      rcases List.mem_cons.mp hy with rfl | hy'
      · rw [hacc a (List.mem_cons_self _ _)]
        rfl
      · exact ih l2' (fun c hc => hacc c (List.mem_cons_of_mem _ hc)) y hy'

theorem foldl_wsum_preserve_none (L : List (Option ℚ × List ℚ)) :
    ∀ acc : List (Option ℚ), (∀ a ∈ acc, a = none) →
      ∀ y ∈ L.foldl
        (fun acc p => List.zipWith nfAdd acc (p.2.map fun v => nfMul p.1 (some v))) acc,
        y = none := by
  induction L with
  | nil => intro acc hacc y hy; exact hacc y hy
  | cons q L' ih =>
    intro acc hacc y hy
    exact ih _ (zipWith_nfAdd_none_left _ _ hacc) y hy

theorem foldl_wsum_none_pair (L : List (Option ℚ × List ℚ)) :
    ∀ acc : List (Option ℚ), (∃ p ∈ L, p.1 = none) →
      ∀ y ∈ L.foldl
        (fun acc p => List.zipWith nfAdd acc (p.2.map fun v => nfMul p.1 (some v))) acc,
        y = none := by
  induction L with
  | nil => rintro acc ⟨p, hp, _⟩; cases hp
  | cons q L' ih =>
    rintro acc ⟨p, hp, hpn⟩ y hy
    rcases List.mem_cons.mp hp with rfl | hp'
    · refine foldl_wsum_preserve_none L' _ ?_ y hy
      apply zipWith_nfAdd_none_right
      intro b hb
      rcases List.mem_map.mp hb with ⟨v, _, rfl⟩
      rw [hpn]
      rfl
    · exact ih _ ⟨p, hp', hpn⟩ y hy

theorem weightedSumNF_all_none {ws : List (Option ℚ)} {sigs : List (List ℚ)} {n : Nat}
    (h : ∃ p ∈ ws.zip sigs, p.1 = none) :
    ∀ y ∈ weightedSumNF ws sigs n, y = none :=
  foldl_wsum_none_pair _ _ h

theorem foldl_wsum_length (L : List (Option ℚ × List ℚ)) (n : Nat)
    (hL : ∀ p ∈ L, p.2.length = n) :
    ∀ acc : List (Option ℚ), acc.length = n →
      (L.foldl
        (fun acc p => List.zipWith nfAdd acc (p.2.map fun v => nfMul p.1 (some v)))
        acc).length = n := by
  induction L with
  | nil => intro acc hacc; exact hacc
  | cons q L' ih =>
    intro acc hacc
    refine ih (fun p hp => hL p (List.mem_cons_of_mem _ hp)) _ ?_
    rw [List.length_zipWith, List.length_map, hacc, hL q (List.mem_cons_self _ _),
      Nat.min_self]

theorem weightedSumNF_length (ws : List (Option ℚ)) (sigs : List (List ℚ)) (n : Nat)
    (hl : ∀ p ∈ ws.zip sigs, p.2.length = n) :
    (weightedSumNF ws sigs n).length = n :=
  foldl_wsum_length _ n hl _ (List.length_replicate _ _)

theorem nfRecip_nfDiv_zero (sv : Option ℚ) : nfRecip (nfDiv (some 0) sv) = none := by
  match sv with
  | none => rfl
  | some t =>
    by_cases ht : t = 0
    · simp [nfDiv, ht, nfRecip]
    · simp [nfDiv, ht, nfRecip]

theorem mem_zip_map_self (f : List ℚ → Option ℚ) :
    ∀ (l : List (List ℚ)) (s : List ℚ), s ∈ l → (f s, s) ∈ (l.map f).zip l := by
  intro l
  induction l with
  | nil => intro s hs; cases hs
  | cons a t ih =>
    intro s hs
    rcases List.mem_cons.mp hs with rfl | hs
    · rw [List.map_cons, List.zip_cons_cons]
      exact List.mem_cons_self _ _
    · rw [List.map_cons, List.zip_cons_cons]
      exact List.mem_cons_of_mem _ (ih s hs)

/-- Core propagation lemma: if any member of the signal group has zero
extrema-spacing variability, its weight `(var / sum_variability) ** -1`
is a division by zero and every entry of the composite weighted sum is
non-finite. -/
theorem combined_signal_none_core (w dist : Nat) (pct : ℚ) (maxima_only : Bool)
    (signal_list nor_list : List (List ℚ)) (s : List ℚ) (hs : s ∈ signal_list)
    (hvar : signal_variability w dist pct maxima_only s = some 0) :
    ∀ y ∈ (combined_signal w dist pct maxima_only signal_list nor_list).1, y = none := by
  set SV := signal_variability w dist pct maxima_only with hSV
  set sumvar := (signal_list.map SV).foldl nfAdd (some 0) with hsv
  have hform : (combined_signal w dist pct maxima_only signal_list nor_list).1 =
      weightedSumNF ((signal_list.map SV).map fun v => nfRecip (nfDiv v sumvar))
        signal_list ((signal_list.headD []).length) := rfl
  have hw : ((signal_list.map SV).map fun v => nfRecip (nfDiv v sumvar)) =
      signal_list.map fun t => nfRecip (nfDiv (SV t) sumvar) := by
    rw [List.map_map]; rfl
  intro y hy
  rw [hform, hw] at hy
  refine weightedSumNF_all_none ⟨(nfRecip (nfDiv (SV s) sumvar), s),
    mem_zip_map_self _ signal_list s hs, ?_⟩ y hy
  show nfRecip (nfDiv (SV s) sumvar) = none
  rw [hvar]
  exact nfRecip_nfDiv_zero sumvar

/-- C8 theorem (amended): no fallback exists -- whenever a signal in the
group has zero extrema-spacing variability, its weight
`(variability / sum_variability) ** -1` divides by zero and every entry
of the composite signal is non-finite (`none` in the float model); numpy
only emits a runtime warning, so the corruption is silent. -/
theorem combined_signal_zero_variability (w dist : Nat) (pct : ℚ) (maxima_only : Bool)
    (signal_list nor_list : List (List ℚ)) (s : List ℚ) (hs : s ∈ signal_list)
    (hvar : signal_variability w dist pct maxima_only s = some 0) :
    ∀ y ∈ (combined_signal w dist pct maxima_only signal_list nor_list).1, y = none :=
  combined_signal_none_core w dist pct maxima_only signal_list nor_list s hs hvar

/-- Evaluation of the variability of the concrete signal
`[0, 1, 0, 1, 0, 0]`: with window 1 the smoothing is the identity, the
extrema (maxima and minima together) sit at indices `[1, 2, 3]`, the
index gaps are `[1, 1]`, and their standard deviation is `0`. -/
theorem signal_variability_concrete_zero :
    signal_variability 1 1 0 false [0, 1, 0, 1, 0, 0] = some 0 := by
  have hp : percentile [0, 1, 0, 1, 0, 0] 0 = 0 := by
    norm_num [percentile, List.insertionSort, List.orderedInsert]
  have he : identify_extrema [0, 1, 0, 1, 0, 0] 1 0 = ([1, 2, 3], [1, 3]) := by
    simp only [identify_extrema, hp]
    decide
  have h1 : signal_variability 1 1 0 false [0, 1, 0, 1, 0, 0] =
      np_variance (diffsQ [1, 2, 3]) := by
    simp only [signal_variability, smooth_curve_one, he]
    rfl
  rw [h1]
  have h2 : diffsQ [1, 2, 3] = [1, 1] := by
    norm_num [diffsQ]
  rw [h2]
  norm_num [np_variance, listMean]

/-- C8 witness: on the concrete degenerate input the hypotheses of the
theorem hold, and in particular the finite value `some 0` cannot occur in
the composite signal (every entry is non-finite). -/
theorem combined_signal_zero_variability_witness :
    some (0 : ℚ) ∉ (combined_signal 1 1 0 false
      [[0, 1, 0, 1, 0, 0], [0, 2, 0, 0, 2, 0]]
      [[0, 1, 0, 1, 0, 0], [0, 2, 0, 0, 2, 0]]).1 := by
  intro hmem
  have h := combined_signal_zero_variability 1 1 0 false
    [[0, 1, 0, 1, 0, 0], [0, 2, 0, 0, 2, 0]] [[0, 1, 0, 1, 0, 0], [0, 2, 0, 0, 2, 0]]
    [0, 1, 0, 1, 0, 0] (List.mem_cons_self _ _) signal_variability_concrete_zero
    (some 0) hmem
  cases h

/-- C8 counterexample: the claim as stated is false -- on a signal group
whose first member has perfectly regular extrema spacing (variability 0)
a non-finite value does appear in the composite signal. -/
theorem combined_signal_inf_cex :
    none ∈ (combined_signal 1 1 0 false
      [[0, 1, 0, 1, 0, 0], [0, 2, 0, 0, 2, 0]]
      [[0, 1, 0, 1, 0, 0], [0, 2, 0, 0, 2, 0]]).1 := by
  have hall := combined_signal_none_core 1 1 0 false
    [[0, 1, 0, 1, 0, 0], [0, 2, 0, 0, 2, 0]] [[0, 1, 0, 1, 0, 0], [0, 2, 0, 0, 2, 0]]
    [0, 1, 0, 1, 0, 0] (List.mem_cons_self _ _) signal_variability_concrete_zero
  have hlen : (combined_signal 1 1 0 false
      [[0, 1, 0, 1, 0, 0], [0, 2, 0, 0, 2, 0]]
      [[0, 1, 0, 1, 0, 0], [0, 2, 0, 0, 2, 0]]).1.length = 6 := by
    show (weightedSumNF _ _ _).length = 6
    apply weightedSumNF_length
    intro p hp
    have h2 := (List.of_mem_zip hp).2
    rcases List.mem_cons.mp h2 with h | h
    · rw [h]; rfl
    · rcases List.mem_cons.mp h with h | h
      · rw [h]; rfl
      · cases h
  have hne : (combined_signal 1 1 0 false
      [[0, 1, 0, 1, 0, 0], [0, 2, 0, 0, 2, 0]]
      [[0, 1, 0, 1, 0, 0], [0, 2, 0, 0, 2, 0]]).1 ≠ [] := by
    intro h
    rw [h] at hlen
    cases hlen
  obtain ⟨y, hy⟩ := List.exists_mem_of_ne_nil _ hne
  rw [← hall y hy]
  exact hy
